import Mathlib

/-!
Verification development for the dimuon pair classification-and-aggregation
task (`AliAnalysisTaskDimu.cxx`).  The pure logic of the task is shallowly
embedded below: the cascading tracklet-distance threshold counter, the
threshold-cut setter, the charge-combination label, the azimuth
normalisation, the pair-type allow-list filter, the mergeable-object
resolution, and the per-event dispatch pipeline of `UserExec`.

Conventions of the embedding:
* real-valued quantities (distances, kinematics) are rationals (`ℚ`);
* azimuthal angles are measured in units of pi, so the raw pair azimuth
  lies in `(-1, 1]`, the full turn `2*pi` is `2`, and the angular window
  `pi/2` of the tracklet loop is `1/2`;
* the mutable `AliMergeableCollection` is a function from
  (identifier, object name) to an optional stored object, and a histogram
  records the multiset of samples filled into it as a list.
-/

namespace DimuTask

/-! ### Cascading threshold counter (`UserExec`, lines 340-357)

For one tracklet hit with distance `dist`, the inner loop walks the ordered
cut list, breaks at the first cut `c` with `dist > c` (the remaining slots
are not visited), increments the slot of every cut passed before the break,
and finally increments the unconditional last slot. -/

/-- Contribution of a single hit of distance `dist` to the per-cut counter
slots: one slot per threshold in `cuts` plus the final unconditional slot.
Mirrors the `break` in the inner loop of `UserExec`: after the first cut
`c` with `dist > c`, the remaining cut slots stay untouched. -/
def cascadePerHit (cuts : List ℚ) (dist : ℚ) : List ℕ :=
  match cuts with
  | [] => [1]
  | c :: rest =>
    if dist > c then List.replicate (rest.length + 1) 0 ++ [1]
    else 1 :: cascadePerHit rest dist

/-- Angular-window test of `UserExec` line 344: a hit at azimuth `hitPhi`
is kept for the pair at azimuth `pairPhi` when the absolute difference of
the two azimuths is at most pi/2 (here `1/2`, angles in units of pi). -/
def hitPasses (pairPhi hitPhi : ℚ) : Bool :=
  decide (|pairPhi - hitPhi| ≤ 1 / 2)

/-- Slot-wise sum of two counter vectors. -/
def addCounts (a b : List ℕ) : List ℕ :=
  List.zipWith (· + ·) a b

/-- Tracklet loop of `UserExec` lines 340-357: starting from the
zero-initialised vector `nTrackletsPerCut`, every hit inside the angular
window adds its cascade contribution; hits outside the window are skipped
entirely (`continue`).  Each hit is a pair (azimuth in units of pi,
tracklet distance). -/
def tallyHits (cuts : List ℚ) (pairPhi : ℚ) (hits : List (ℚ × ℚ)) : List ℕ :=
  hits.foldl
    (fun acc h =>
      if hitPasses pairPhi h.1 then addCounts acc (cascadePerHit cuts h.2) else acc)
    (List.replicate (cuts.length + 1) 0)

/-! ### Threshold-cut setter (`SetTrackletDistCuts`, lines 125-136)

The setter clears the stored list, copies the input values, and sorts them
with `std::greater`, i.e. in descending order.  No other normalisation is
performed. -/

/-- Embedding of `AliAnalysisTaskDimu::SetTrackletDistCuts`: store the
input values sorted in descending order. -/
def SetTrackletDistCuts (cuts : List ℚ) : List ℚ :=
  cuts.mergeSort (fun a b => decide (b ≤ a))

/-! ### Charge-combination label (`UserExec`, line 319) -/

/-- Charge-combination label of a track pair: "SS" when the product of the
two charges is non-negative, "OS" otherwise. -/
def chargeType (q1 q2 : ℤ) : String :=
  if q1 * q2 ≥ 0 then "SS" else "OS"

/-! ### Azimuth normalisation (`UserExec`, lines 331-333)

`TLorentzVector::Phi` returns the azimuth in `(-pi, pi]`; the pipeline adds
a full turn when the value is negative.  In units of pi: raw value in
`(-1, 1]`, add `2` when negative. -/

/-- Azimuth normalisation: add a full turn (`2`, i.e. `2*pi`) when the raw
azimuth is negative. -/
def normPhi (phiRaw : ℚ) : ℚ :=
  if phiRaw < 0 then phiRaw + 2 else phiRaw

/-! ### Pair-type allow-list filter (`UserExec`, lines 324-327)

The filter builds the regular expression `(^|,)P(,|$)` from the pair-type
label `P` and keeps the pair when the comma-delimited configured set
matches it.  The label is treated as a literal string (the labels produced
by the classifier contain no regular-expression metacharacters).  Strings
are modelled as lists of characters. -/

/-- Right-boundary test of the regular expression `(^|,)P(,|$)`: the text
following the matched label must be empty (`$`) or start with a comma. -/
def afterOk : List Char → Bool
  | [] => true
  | c :: _ => decide (c = ',')

/-- Left-anchored match of `P(,|$)` against `sel`: `p` is a leading block
of `sel` whose right boundary is a comma or the end of the string. -/
def startsWithSeg : List Char → List Char → Bool
  | [], sel => afterOk sel
  | _ :: _, [] => false
  | a :: p, b :: sel => decide (a = b) && startsWithSeg p sel

/-- Scan for a match of `,P(,|$)` anywhere in `sel`: at every position, a
comma may serve as the left boundary of the label. -/
def regexMatchFrom (p : List Char) : List Char → Bool
  | [] => false
  | c :: rest => (decide (c = ',') && startsWithSeg p rest) || regexMatchFrom p rest

/-- Match of the full regular expression `(^|,)P(,|$)` against `sel`: the
label may start at the beginning of the string or after any comma. -/
def regexMatch (sel p : List Char) : Bool :=
  startsWithSeg p sel || regexMatchFrom p sel

/-- Retention test of `UserExec` lines 324-327: an empty configured set
keeps every pair; a non-empty one keeps the pair exactly when the regular
expression `(^|,)P(,|$)` built from the pair-type label matches it. -/
def retainPair (sel p : List Char) : Bool :=
  sel.isEmpty || regexMatch sel p

/-- Modelled from the spec: the comma-delimited segments of the configured
set, for the exact-segment reading of the allow-list ("split on comma,
exact string equality per segment"). -/
def segments : List Char → List (List Char)
  | [] => [[]]
  | c :: rest =>
    if c = ',' then [] :: segments rest
    else
      match segments rest with
      | s :: ss => (c :: s) :: ss
      | [] => [[c]]

/-! ### Mergeable-object resolution (`GetMergeableObject`, lines 139-159)

The collection maps an (identifier, object name) key to an object.  A
histogram object records the list of sample tuples filled into it; the
"nevents" counter records its number of `Fill(1.)` calls.  The factory
recognises exactly the names "DimuSparse" (clone of the empty template
sparse histogram) and "nevents" (one-bin counting histogram). -/

/-- Stored object of the mergeable collection: the sparse dimuon histogram
(list of filled sample tuples) or the one-bin "nevents" counter. -/
inductive MObj where
  | sparse (samples : List (List ℚ))
  | hist1 (entries : ℕ)
deriving DecidableEq

/-- State of the mergeable collection: (identifier, object name) keys to
optional stored objects. -/
def DStore := String × String → Option MObj

/-- Collection with no objects. -/
def emptyDStore : DStore := fun _ => none

/-- Insertion of an object at an (identifier, object name) key, as done by
`AliMergeableCollection::Adopt` on a freshly created object. -/
def updateStore (store : DStore) (identifier objectName : String) (o : MObj) : DStore :=
  fun k => if k = (identifier, objectName) then some o else store k

/-- Result of one `GetMergeableObject` call: the returned object (none on
an unknown request), the collection afterwards, and the error messages
emitted. -/
structure ResolveOut where
  obj : Option MObj
  store : DStore
  errors : List String

/-- Embedding of `AliAnalysisTaskDimu::GetMergeableObject`: return the
existing object when present; otherwise create it via the factory keyed by
object name and adopt it into the collection.  An unrecognised name is
logged via `AliError` and yields no object; adopting the resulting null
pointer is modelled from the spec (`AliMergeableCollection` is not part of
this repository): per the spec, an unknown object request leaves the store
unmodified for that path. -/
def GetMergeableObject (store : DStore) (identifier objectName : String) : ResolveOut :=
  match store (identifier, objectName) with
  | some o => ⟨some o, store, []⟩
  | none =>
    if objectName = "DimuSparse" then
      let o := MObj.sparse []
      ⟨some o, updateStore store identifier objectName o, []⟩
    else if objectName = "nevents" then
      let o := MObj.hist1 0
      ⟨some o, updateStore store identifier objectName o, []⟩
    else
      ⟨none, store, ["Unknown object " ++ objectName]⟩

/-! ### Dispatch into the store (`UserExec`, lines 265-268 and 362-371)

Every store mutation of `UserExec` is a resolve-then-fill: the object at
the addressed path is created on first reference and then filled with one
sample.  A fill record captures one such dispatch. -/

/-- One dispatched fill: addressed identifier path, object name, and the
sample tuple passed to `Fill`. -/
structure FillRec where
  identifier : String
  objectName : String
  values : List ℚ
deriving DecidableEq

/-- Effect of `Fill` on a stored object: a sparse histogram appends the
sample tuple; the "nevents" counter increments its entry count. -/
def fillObj (o : MObj) (v : List ℚ) : MObj :=
  match o with
  | .sparse s => .sparse (s ++ [v])
  | .hist1 n => .hist1 (n + 1)

/-- One resolve-then-fill step on the collection. -/
def applyFill (store : DStore) (f : FillRec) : DStore :=
  let r := GetMergeableObject store f.identifier f.objectName
  match r.obj with
  | some o => updateStore r.store f.identifier f.objectName (fillObj o f.values)
  | none => r.store

/-- Sequential application of a list of dispatched fills. -/
def applyFills (store : DStore) (fills : List FillRec) : DStore :=
  fills.foldl applyFill store

/-! ### Event processing pipeline (`UserExec`, lines 231-377)

The external collaborators (event cuts, track cuts, multiplicity source,
ancestry resolver, pair kinematics, trigger pt-cut policy) enter the
embedding as data: their per-event answers are fields of `EventIn`. -/

/-- Per-pair answers of the external collaborators: the pair-type label
from the ancestry resolver, the four kinematic observables of the pair
(raw azimuth in `(-1, 1]`, units of pi), and the per-trigger-class pt-cut
verdict of `TrackPtCutMatchTrigClass`. -/
structure PairInfo where
  pairType : String
  pt : ℚ
  y : ℚ
  phiRaw : ℚ
  mass : ℚ
  passPtCut : String → Bool

/-- One processing pass (reconstructed or generated): its kind, the active
trigger-class labels, the per-track selection verdict and charge, and the
per-pair collaborator answers indexed by positions in the selected-track
list. -/
structure StepIn where
  isRec : Bool
  trigClasses : List String
  tracks : List (Bool × ℤ)
  pairInfo : ℕ → ℕ → PairInfo

/-- Per-event input: the event-cut verdict, the optional tracklet
multiplicity measurement (list of (azimuth in units of pi, distance)
hits — `none` when the cast of `GetMultiplicity` yields null), the
centrality, and the processing passes. -/
structure EventIn where
  selected : Bool
  mult : Option (List (ℚ × ℚ))
  centrality : ℚ
  steps : List StepIn

/-- Names of the threshold-cut slots (`trackletDistCutsName`): one name
per configured cut plus the final unconditional "none" slot. -/
def cutNames (cuts : List ℚ) : List String :=
  cuts.map (fun v => "trackletDistCuts_" ++ toString v) ++ ["trackletDistCuts_none"]

/-- Tracklet counter vector used for one pair: computed by the tracklet
loop when the multiplicity measurement is present, otherwise left at the
zero initialisation of `nTrackletsPerCut` (the `if ( mult )` block of
`UserExec` is skipped entirely). -/
def pairCounts (cuts : List ℚ) (mult : Option (List (ℚ × ℚ))) (phi : ℚ) : List ℕ :=
  match mult with
  | some hits => tallyHits cuts phi hits
  | none => List.replicate (cuts.length + 1) 0

/-- Unordered pair positions `(i, j)` with `i < j < n`, in the nested-loop
order of `UserExec`. -/
def pairIndices (n : ℕ) : List (ℕ × ℕ) :=
  (List.range n).flatMap
    (fun i => ((List.range n).filter (fun j => i < j)).map (fun j => (i, j)))

/-- Dispatches of one track pair (`UserExec` lines 315-372): charge label,
pair-type label, allow-list filter, azimuth normalisation, tracklet
counting, then — per active trigger class passing the reconstructed-pass
pt gate and per threshold slot — one fill of the sparse histogram at path
`/trigger/cutSlot/pairType/chargeLabel` with the sample (pt, y, phi, mass,
centrality, slot count). -/
def pairFills (cuts : List ℚ) (selTypes : String) (mult : Option (List (ℚ × ℚ)))
    (cent : ℚ) (step : StepIn) (charges : List ℤ) (ij : ℕ × ℕ) : List FillRec :=
  let ct := chargeType (charges.getD ij.1 0) (charges.getD ij.2 0)
  let pinf := step.pairInfo ij.1 ij.2
  if retainPair selTypes.toList pinf.pairType.toList then
    let phi := normPhi pinf.phiRaw
    let counts := pairCounts cuts mult phi
    step.trigClasses.flatMap (fun tc =>
      if step.isRec && ! pinf.passPtCut tc then []
      else
        (List.range (cuts.length + 1)).map (fun icut =>
          { identifier :=
              "/" ++ tc ++ "/" ++ (cutNames cuts).getD icut "" ++ "/" ++
                pinf.pairType ++ "/" ++ ct
            objectName := "DimuSparse"
            values := [pinf.pt, pinf.y, phi, pinf.mass, cent,
                       ((counts.getD icut 0 : ℕ) : ℚ)] }))
  else []

/-- Dispatches of one processing pass: the per-trigger-class "nevents"
fill at path `/trigger`, then — when at least two tracks survive
selection — the dispatches of every unordered pair of selected tracks. -/
def stepFills (cuts : List ℚ) (selTypes : String) (mult : Option (List (ℚ × ℚ)))
    (cent : ℚ) (step : StepIn) : List FillRec :=
  let neventsFills := step.trigClasses.map
    (fun tc => { identifier := "/" ++ tc, objectName := "nevents", values := [1] : FillRec })
  let charges := (step.tracks.filter (fun t => t.1)).map (fun t => t.2)
  if charges.length < 2 then neventsFills
  else
    neventsFills ++
      (pairIndices charges.length).flatMap (pairFills cuts selTypes mult cent step charges)

/-- Full list of store dispatches of one `UserExec` call: nothing when the
event cuts reject the event (line 237), otherwise the dispatches of every
processing pass. -/
def UserExecFills (cuts : List ℚ) (selTypes : String) (ev : EventIn) : List FillRec :=
  if ev.selected then ev.steps.flatMap (stepFills cuts selTypes ev.mult ev.centrality)
  else []

/-- Embedding of `AliAnalysisTaskDimu::UserExec` as a transformation of
the mergeable collection: apply every dispatched fill in order. -/
def UserExec (cuts : List ℚ) (selTypes : String) (ev : EventIn) (store : DStore) : DStore :=
  applyFills store (UserExecFills cuts selTypes ev)

/-- Replacement of the tracklet-count coordinate (position 5 of the sample
tuple) by zero in a sparse-histogram fill; "nevents" fills carry no
tracklet coordinate and are unchanged. -/
def zeroTrk (f : FillRec) : FillRec :=
  if f.objectName = "DimuSparse" then { f with values := f.values.set 5 0 } else f

/-- Concrete event used to exercise the pipeline at closed inputs: one
generated-pass step with two selected tracks of opposite charge forming
one pair of type "BeautyChainMu". -/
def sampleEvent : EventIn :=
  { selected := true
    mult := some [(0, 1)]
    centrality := 7
    steps := [{ isRec := false
                trigClasses := ["generated"]
                tracks := [(true, 1), (true, -1)]
                pairInfo := fun _ _ =>
                  { pairType := "BeautyChainMu", pt := 3, y := 3, phiRaw := 0,
                    mass := 5, passPtCut := fun _ => true } }] }

/-! ### Merge of partial aggregates

Modelled from the spec: the merge step (`AliMergeableCollection::Merge`,
`THnSparse::Merge`, `TH1::Merge`) is not part of this repository.  Per the
spec, merging two histograms of identical axis template sums the bin
contents bin by bin, merging two scalar counters sums them, and merging
two stores walks the union of the path sets, summing the leaves present in
both and adopting the leaves present in only one. -/

/-- Modelled from the spec: bin contents of a histogram over the shared
axis template, as a map from bin index to count. -/
def HistBins := ℕ → ℕ

/-- Modelled from the spec: histogram merge is bin-by-bin summation. -/
def mergeHist (a b : HistBins) : HistBins :=
  fun i => a i + b i

/-- Modelled from the spec: an empty histogram has every bin at zero. -/
def emptyHistBins : HistBins := fun _ => 0

/-- Modelled from the spec: scalar-counter merge is summation. -/
def mergeCounter (m n : ℕ) : ℕ := m + n

/-- Modelled from the spec: a store maps each hierarchical path to the
leaf aggregate living there, when present. -/
def StoreMap := String → Option HistBins

/-- Modelled from the spec: store merge sums leaves present in both stores
and adopts leaves present in only one. -/
def mergeStore (a b : StoreMap) : StoreMap :=
  fun p =>
    match a p, b p with
    | some x, some y => some (mergeHist x y)
    | some x, none => some x
    | none, some y => some y
    | none, none => none

/-- Modelled from the spec: the empty store holds no leaf at any path. -/
def emptyStoreMap : StoreMap := fun _ => none

/-! ## Helper lemmas -/

theorem cascadePerHit_eq_map (T : List ℚ) (d : ℚ) (hs : T.Sorted (· ≥ ·)) :
    cascadePerHit T d = T.map (fun t => if d ≤ t then 1 else 0) ++ [1] := by
  induction T with
  | nil => simp [cascadePerHit]
  | cons c rest ih =>
    rw [List.sorted_cons] at hs
    obtain ⟨hc, hrest⟩ := hs
    by_cases hd : d > c
    · have hmap : rest.map (fun t => if d ≤ t then (1:ℕ) else 0) =
          List.replicate rest.length 0 := by
        rw [List.eq_replicate_iff]
        refine ⟨by simp, ?_⟩
        intro b hb
        rw [List.mem_map] at hb
        obtain ⟨x, hx, rfl⟩ := hb
        have : ¬ d ≤ x := not_le.mpr (lt_of_le_of_lt (hc x hx) hd)
        simp [this]
      simp [cascadePerHit, hd, hmap, not_le.mpr hd, List.replicate_succ]
    · have hd' : d ≤ c := not_lt.mp hd
      simp [cascadePerHit, hd, ih hrest, hd']

theorem cascadePerHit_length (cuts : List ℚ) (d : ℚ) :
    (cascadePerHit cuts d).length = cuts.length + 1 := by
  induction cuts with
  | nil => simp [cascadePerHit]
  | cons c rest ih =>
    by_cases hd : d > c
    · simp [cascadePerHit, hd]
    · simp [cascadePerHit, hd, ih]

theorem addCounts_replicate_zero (l : List ℕ) :
    addCounts (List.replicate l.length 0) l = l := by
  induction l with
  | nil => simp [addCounts]
  | cons x xs ih => simpa [addCounts, List.replicate_succ] using ih

theorem tally_foldl_filter (cuts : List ℚ) (pairPhi : ℚ) (hits : List (ℚ × ℚ))
    (acc : List ℕ) :
    hits.foldl
      (fun acc h =>
        if hitPasses pairPhi h.1 then addCounts acc (cascadePerHit cuts h.2) else acc) acc =
    (hits.filter (fun h => hitPasses pairPhi h.1)).foldl
      (fun acc h =>
        if hitPasses pairPhi h.1 then addCounts acc (cascadePerHit cuts h.2) else acc) acc := by
  induction hits generalizing acc with
  | nil => rfl
  | cons h t ih =>
    by_cases hp : hitPasses pairPhi h.1
    · simp [List.filter_cons, hp, ih]
    · simp [List.filter_cons, hp, ih]

theorem tallyHits_filter (cuts : List ℚ) (pairPhi : ℚ) (hits : List (ℚ × ℚ)) :
    tallyHits cuts pairPhi hits =
      tallyHits cuts pairPhi (hits.filter (fun h => hitPasses pairPhi h.1)) := by
  rw [tallyHits, tallyHits, tally_foldl_filter]

theorem tallyHits_single (cuts : List ℚ) (pairPhi : ℚ) (h : ℚ × ℚ) :
    tallyHits cuts pairPhi [h] =
      if hitPasses pairPhi h.1 then cascadePerHit cuts h.2
      else List.replicate (cuts.length + 1) 0 := by
  by_cases hp : hitPasses pairPhi h.1
  · have hz := addCounts_replicate_zero (cascadePerHit cuts h.2)
    rw [cascadePerHit_length] at hz
    simp [tallyHits, hp, hz]
  · simp [tallyHits, hp]

theorem segments_ne_nil (sel : List Char) : segments sel ≠ [] := by
  induction sel with
  | nil => simp [segments]
  | cons c rest ih =>
    simp only [segments]
    split
    · simp
    · cases h : segments rest with
      | nil => simp
      | cons s ss => simp

theorem startsWithSeg_iff (p sel : List Char) (hp : ',' ∉ p) :
    startsWithSeg p sel = true ↔ ∃ ss, segments sel = p :: ss := by
  induction sel generalizing p with
  | nil =>
    cases p with
    | nil => simp [startsWithSeg, afterOk, segments]
    | cons a p' => simp [startsWithSeg, segments]
  | cons c rest ih =>
    by_cases hc : c = ','
    · subst hc
      cases p with
      | nil => simp [startsWithSeg, afterOk, segments]
      | cons a p' =>
        have ha : a ≠ ',' := fun h => hp (h ▸ List.mem_cons_self a p')
        simp [startsWithSeg, segments, ha]
    · obtain ⟨s, ss, hseg⟩ : ∃ s ss, segments rest = s :: ss := by
        cases h : segments rest with
        | nil => exact absurd h (segments_ne_nil rest)
        | cons s ss => exact ⟨s, ss, rfl⟩
      have hsegc : segments (c :: rest) = (c :: s) :: ss := by
        simp [segments, hc, hseg]
      cases p with
      | nil => simp [startsWithSeg, afterOk, hc, hsegc]
      | cons a p' =>
        have hp' : ',' ∉ p' := fun h => hp (List.mem_cons_of_mem a h)
        rw [hsegc]
        simp only [startsWithSeg, Bool.and_eq_true, decide_eq_true_eq, ih p' hp', hseg]
        constructor
        · rintro ⟨rfl, ss', hss'⟩
          obtain ⟨h1, h2⟩ := List.cons_eq_cons.mp hss'
          subst h1
          exact ⟨ss, rfl⟩
        · rintro ⟨ss', hss'⟩
          obtain ⟨h1, h2⟩ := List.cons_eq_cons.mp hss'
          obtain ⟨h3, h4⟩ := List.cons_eq_cons.mp h1
          subst h3
          exact ⟨rfl, ss, by rw [h4]⟩

theorem regexMatchFrom_iff (p sel : List Char) (hp : ',' ∉ p) :
    regexMatchFrom p sel = true ↔ p ∈ (segments sel).tail := by
  induction sel with
  | nil => simp [regexMatchFrom, segments]
  | cons c rest ih =>
    obtain ⟨s, ss, hseg⟩ : ∃ s ss, segments rest = s :: ss := by
      cases h : segments rest with
      | nil => exact absurd h (segments_ne_nil rest)
      | cons s ss => exact ⟨s, ss, rfl⟩
    by_cases hc : c = ','
    · subst hc
      have hstep : regexMatchFrom p (',' :: rest) =
          (startsWithSeg p rest || regexMatchFrom p rest) := by
        simp [regexMatchFrom]
      have hsegc : segments (',' :: rest) = [] :: segments rest := by simp [segments]
      rw [hstep, hsegc, List.tail_cons, Bool.or_eq_true, startsWithSeg_iff p rest hp, ih,
        hseg, List.tail_cons]
      constructor
      · rintro (⟨ss', hss'⟩ | h)
        · rw [(List.cons_eq_cons.mp hss').1]
          exact List.mem_cons_self _ _
        · exact List.mem_cons_of_mem _ h
      · intro h
        rcases List.mem_cons.mp h with h | h
        · exact Or.inl ⟨ss, by rw [h]⟩
        · exact Or.inr h
    · have hsegc : segments (c :: rest) = (c :: s) :: ss := by simp [segments, hc, hseg]
      have hstep : regexMatchFrom p (c :: rest) = regexMatchFrom p rest := by
        simp [regexMatchFrom, hc]
      rw [hstep, ih, hsegc, List.tail_cons, hseg, List.tail_cons]

theorem retainPair_iff (sel p : List Char) (hp : ',' ∉ p) :
    retainPair sel p = true ↔ sel = [] ∨ p ∈ segments sel := by
  obtain ⟨s, ss, hseg⟩ : ∃ s ss, segments sel = s :: ss := by
    cases h : segments sel with
    | nil => exact absurd h (segments_ne_nil sel)
    | cons s ss => exact ⟨s, ss, rfl⟩
  rw [retainPair, Bool.or_eq_true, regexMatch, Bool.or_eq_true,
    startsWithSeg_iff p sel hp, regexMatchFrom_iff p sel hp, hseg, List.tail_cons,
    List.isEmpty_iff]
  constructor
  · rintro (h | ⟨ss', hss'⟩ | h)
    · exact Or.inl h
    · exact Or.inr ((List.cons_eq_cons.mp hss').1 ▸ List.mem_cons_self _ _)
    · exact Or.inr (List.mem_cons_of_mem _ h)
  · rintro (h | h)
    · exact Or.inl h
    · rcases List.mem_cons.mp h with h | h
      · exact Or.inr (Or.inl ⟨ss, by rw [h]⟩)
      · exact Or.inr (Or.inr h)

theorem getD_replicate_zero (n i : ℕ) : (List.replicate n (0:ℕ)).getD i 0 = 0 := by
  induction n generalizing i with
  | zero => rfl
  | succ m ih =>
    cases i with
    | zero => simp [List.replicate_succ]
    | succ j => simp [List.replicate_succ, ih j]

theorem pairFills_mult_none (cuts : List ℚ) (selTypes : String)
    (mult : Option (List (ℚ × ℚ))) (cent : ℚ) (step : StepIn) (charges : List ℤ)
    (ij : ℕ × ℕ) :
    pairFills cuts selTypes none cent step charges ij =
      (pairFills cuts selTypes mult cent step charges ij).map zeroTrk := by
  simp only [pairFills]
  by_cases hr : retainPair selTypes.toList (step.pairInfo ij.1 ij.2).pairType.toList
  · rw [if_pos hr, if_pos hr, List.map_flatMap]
    congr 1
    funext tc
    by_cases hskip : step.isRec && ! (step.pairInfo ij.1 ij.2).passPtCut tc
    · rw [if_pos hskip, if_pos hskip]
      rfl
    · rw [if_neg hskip, if_neg hskip, List.map_map]
      apply List.map_congr_left
      intro icut _
      simp [zeroTrk, pairCounts, getD_replicate_zero]
  · rw [if_neg hr, if_neg hr]
    rfl

theorem stepFills_mult_none (cuts : List ℚ) (selTypes : String)
    (mult : Option (List (ℚ × ℚ))) (cent : ℚ) (step : StepIn) :
    stepFills cuts selTypes none cent step =
      (stepFills cuts selTypes mult cent step).map zeroTrk := by
  simp only [stepFills]
  have hnev : (step.trigClasses.map
      (fun tc =>
        { identifier := "/" ++ tc, objectName := "nevents", values := [1] : FillRec })).map
        zeroTrk =
      step.trigClasses.map
        (fun tc =>
          { identifier := "/" ++ tc, objectName := "nevents", values := [1] : FillRec }) := by
    rw [List.map_map]
    apply List.map_congr_left
    intro tc _
    simp [zeroTrk]
  by_cases hn : (((step.tracks.filter (fun t => t.1)).map (fun t => t.2)).length) < 2
  · rw [if_pos hn, if_pos hn, hnev]
  · rw [if_neg hn, if_neg hn, List.map_append, hnev, List.map_flatMap]
    congr 1
    exact congrArg _ (funext fun ij => pairFills_mult_none cuts selTypes mult cent step _ ij)

theorem userExecFills_mult_none (cuts : List ℚ) (selTypes : String) (ev : EventIn) :
    UserExecFills cuts selTypes { ev with mult := none } =
      (UserExecFills cuts selTypes ev).map zeroTrk := by
  simp only [UserExecFills]
  by_cases hsel : ev.selected
  · simp only [hsel, if_pos, List.map_flatMap]
    exact congrArg _
      (funext fun step => stepFills_mult_none cuts selTypes ev.mult ev.centrality step)
  · simp [hsel]

theorem getD_set5_zero (v : List ℚ) : (v.set 5 0).getD 5 0 = 0 := by
  by_cases h : 5 < v.length
  · rw [List.getD_eq_getElem?_getD, List.getElem?_set_self (by simpa using h)]
    rfl
  · rw [List.getD_eq_getElem?_getD, List.getElem?_eq_none (by simp [not_lt.mp h])]
    rfl

theorem zeroTrk_getD5 (f : FillRec) (h : f.objectName = "DimuSparse") :
    (zeroTrk f).values.getD 5 0 = 0 := by
  rw [zeroTrk, if_pos h]
  exact getD_set5_zero f.values

theorem mergeHist_assoc (a b c : HistBins) :
    mergeHist a (mergeHist b c) = mergeHist (mergeHist a b) c := by
  funext i
  simp [mergeHist, Nat.add_assoc]

theorem mergeHist_comm (a b : HistBins) : mergeHist a b = mergeHist b a := by
  funext i
  simp [mergeHist, Nat.add_comm]

theorem mergeHist_empty_right (a : HistBins) : mergeHist a emptyHistBins = a := by
  funext i
  simp [mergeHist, emptyHistBins]

theorem mergeHist_empty_left (a : HistBins) : mergeHist emptyHistBins a = a := by
  funext i
  simp [mergeHist, emptyHistBins]

theorem mergeStore_assoc (a b c : StoreMap) :
    mergeStore a (mergeStore b c) = mergeStore (mergeStore a b) c := by
  funext p
  simp only [mergeStore]
  cases a p <;> cases b p <;> cases c p <;> simp [mergeHist_assoc]

theorem mergeStore_comm (a b : StoreMap) : mergeStore a b = mergeStore b a := by
  funext p
  simp only [mergeStore]
  cases a p <;> cases b p <;> simp [mergeHist_comm]

theorem mergeStore_empty_right (a : StoreMap) : mergeStore a emptyStoreMap = a := by
  funext p
  simp only [mergeStore, emptyStoreMap]
  cases a p <;> simp

theorem mergeStore_empty_left (a : StoreMap) : mergeStore emptyStoreMap a = a := by
  funext p
  simp only [mergeStore, emptyStoreMap]
  cases a p <;> simp

/-! ## Claims -/

/-- C1: for every descending-sorted threshold list `T` and every hit
distance `d`, the per-hit cascade has one slot per threshold plus the
final unconditional slot, the slot of threshold index `i` is incremented
exactly when `d` does not exceed threshold `i` (the scan from loosest to
tightest stops at the first threshold below `d`), and the final slot is
always incremented; in particular `T = [5, 2]`, `d = 3` gives `[1, 0, 1]`
and an empty `T` gives the single unconditional slot `[1]`. -/
theorem claim_c1_cascade_slots (T : List ℚ) (d : ℚ) (hs : T.Sorted (· ≥ ·)) :
    cascadePerHit T d = T.map (fun t => if d ≤ t then 1 else 0) ++ [1] ∧
    cascadePerHit [5, 2] 3 = [1, 0, 1] ∧
    cascadePerHit [] d = [1] :=
  ⟨cascadePerHit_eq_map T d hs, by decide, rfl⟩

/-- Witness for C1 at `T = [5, 2]`, `d = 3`. -/
theorem claim_c1_cascade_slots_witness :
    List.Sorted (· ≥ ·) [(5:ℚ), 2] ∧
    (cascadePerHit [5, 2] 3 =
        [(5:ℚ), 2].map (fun t => if (3:ℚ) ≤ t then 1 else 0) ++ [1] ∧
      cascadePerHit [5, 2] 3 = [1, 0, 1] ∧
      cascadePerHit [] 3 = [1]) :=
  ⟨by decide, claim_c1_cascade_slots [5, 2] 3 (by decide)⟩

/-- C2: merge of aggregates is associative and commutative for histograms
(bin by bin), scalar counters, and whole stores (path by path), and the
empty histogram, the zero counter and the empty store are identity
elements; hence any fold order over any number of worker stores yields the
same final result. -/
theorem claim_c2_merge_algebra :
    (∀ a b c : HistBins, mergeHist a (mergeHist b c) = mergeHist (mergeHist a b) c) ∧
    (∀ a b : HistBins, mergeHist a b = mergeHist b a) ∧
    (∀ a : HistBins, mergeHist a emptyHistBins = a ∧ mergeHist emptyHistBins a = a) ∧
    (∀ m n k : ℕ, mergeCounter m (mergeCounter n k) = mergeCounter (mergeCounter m n) k) ∧
    (∀ m n : ℕ, mergeCounter m n = mergeCounter n m) ∧
    (∀ m : ℕ, mergeCounter m 0 = m ∧ mergeCounter 0 m = m) ∧
    (∀ a b c : StoreMap, mergeStore a (mergeStore b c) = mergeStore (mergeStore a b) c) ∧
    (∀ a b : StoreMap, mergeStore a b = mergeStore b a) ∧
    (∀ a : StoreMap, mergeStore a emptyStoreMap = a ∧ mergeStore emptyStoreMap a = a) :=
  ⟨mergeHist_assoc, mergeHist_comm,
    fun a => ⟨mergeHist_empty_right a, mergeHist_empty_left a⟩,
    fun m n k => (Nat.add_assoc m n k).symm,
    Nat.add_comm,
    fun m => ⟨Nat.add_zero m, Nat.zero_add m⟩,
    mergeStore_assoc, mergeStore_comm,
    fun a => ⟨mergeStore_empty_right a, mergeStore_empty_left a⟩⟩

/-- C3: for every identifier path and every object name the factory does
not recognise (anything other than "DimuSparse" and "nevents"), resolution
logs the error, returns no object, and leaves the collection unmodified
for that path. -/
theorem claim_c3_unknown_object (store : DStore) (identifier objectName : String)
    (h1 : objectName ≠ "DimuSparse") (h2 : objectName ≠ "nevents")
    (h3 : store (identifier, objectName) = none) :
    GetMergeableObject store identifier objectName =
      ⟨none, store, ["Unknown object " ++ objectName]⟩ := by
  simp [GetMergeableObject, h1, h2, h3]

/-- Witness for C3 at the empty collection and the unrecognised name
"bogus". -/
theorem claim_c3_unknown_object_witness :
    ("bogus" : String) ≠ "DimuSparse" ∧ ("bogus" : String) ≠ "nevents" ∧
    emptyDStore ("/CINT7-B-NOPF-MUFAST", "bogus") = none ∧
    GetMergeableObject emptyDStore "/CINT7-B-NOPF-MUFAST" "bogus" =
      ⟨none, emptyDStore, ["Unknown object bogus"]⟩ :=
  ⟨by decide, by decide, rfl,
    claim_c3_unknown_object emptyDStore "/CINT7-B-NOPF-MUFAST" "bogus"
      (by decide) (by decide) rfl⟩

/-- C4 counterexample: the input `[2, 2]` is stored as `[2, 2]`, which
contains a duplicate value, so the setter does not deduplicate. -/
theorem claim_c4_counterexample :
    SetTrackletDistCuts [(2:ℚ), 2] = [2, 2] ∧
      ¬ (SetTrackletDistCuts [(2:ℚ), 2]).Nodup := by
  have h : SetTrackletDistCuts [(2:ℚ), 2] = [2, 2] :=
    List.mergeSort_of_sorted (by simp)
  exact ⟨h, by rw [h]; decide⟩

/-- C4 (amended): for every input array the setter stores the values
sorted in descending order, keeping every input value including
duplicates (the stored list is a permutation of the input). -/
theorem claim_c4_sort_descending (l : List ℚ) :
    List.Sorted (fun a b => b ≤ a) (SetTrackletDistCuts l) ∧
      (SetTrackletDistCuts l).Perm l := by
  constructor
  · have h := @List.sorted_mergeSort ℚ (fun a b => decide (b ≤ a))
      (fun a b c h1 h2 => by
        simp only [decide_eq_true_eq] at h1 h2 ⊢
        exact le_trans h2 h1)
      (fun a b => by
        simp only [Bool.or_eq_true, decide_eq_true_eq]
        exact le_total b a)
      l
    exact h.imp (fun hab => by simpa using hab)
  · exact List.mergeSort_perm l _

/-- C5 counterexample: with the configured set "a,b" and the pair-type
label "a,b", the label matches none of the comma-delimited segments
("a" and "b"), yet the pair is retained: the regular expression matches
the label across the segment boundary. -/
theorem claim_c5_counterexample :
    retainPair ['a', ',', 'b'] ['a', ',', 'b'] = true ∧
    ['a', ',', 'b'] ∉ segments ['a', ',', 'b'] ∧
    (['a', ',', 'b'] : List Char) ≠ [] := by
  decide

/-- C5 (amended): for every pair-type label containing no comma, a pair is
retained if and only if the configured set is empty or the label exactly
equals one of its comma-delimited segments; a label containing a comma can
instead be retained by matching across segment boundaries. -/
theorem claim_c5_exact_segment (sel p : List Char) (hp : ',' ∉ p) :
    retainPair sel p = true ↔ sel = [] ∨ p ∈ segments sel :=
  retainPair_iff sel p hp

/-- Witness for C5 at the configured set "a,b" and the label "b". -/
theorem claim_c5_exact_segment_witness :
    (',' ∉ (['b'] : List Char)) ∧
    (retainPair ['a', ',', 'b'] ['b'] = true ↔
      (['a', ',', 'b'] : List Char) = [] ∨ ['b'] ∈ segments ['a', ',', 'b']) :=
  ⟨by decide, claim_c5_exact_segment ['a', ',', 'b'] ['b'] (by decide)⟩

/-- C6: a hit contributes to the per-pair threshold counts exactly when
the absolute difference between its azimuth and the pair's azimuth is at
most pi/2 (`1/2` in units of pi): the tally over any hit list equals the
tally over the hits passing the window, and a single hit contributes its
full cascade (including the unconditional slot) when inside the window and
nothing to any slot when outside. -/
theorem claim_c6_angular_window (cuts : List ℚ) (pairPhi : ℚ) (hits : List (ℚ × ℚ))
    (h : ℚ × ℚ) :
    tallyHits cuts pairPhi hits =
      tallyHits cuts pairPhi (hits.filter (fun x => hitPasses pairPhi x.1)) ∧
    tallyHits cuts pairPhi [h] =
      (if |pairPhi - h.1| ≤ 1 / 2 then cascadePerHit cuts h.2
       else List.replicate (cuts.length + 1) 0) := by
  refine ⟨tallyHits_filter cuts pairPhi hits, ?_⟩
  rw [tallyHits_single]
  by_cases hp : |pairPhi - h.1| ≤ 1 / 2
  · have hp' : hitPasses pairPhi h.1 = true := by
      rw [hitPasses, decide_eq_true_eq]
      exact hp
    rw [if_pos hp', if_pos hp]
  · have hp' : hitPasses pairPhi h.1 = false := by
      rw [hitPasses, decide_eq_false_iff_not]
      exact hp
    rw [if_neg (by rw [hp']; exact Bool.false_ne_true), if_neg hp]

/-- C7: the charge-combination label takes exactly the two values "SS" and
"OS", it is "SS" precisely when the product of the two charges is
non-negative, and it is symmetric in the two tracks. -/
theorem claim_c7_charge_label (q1 q2 : ℤ) :
    (chargeType q1 q2 = "SS" ∨ chargeType q1 q2 = "OS") ∧
    (chargeType q1 q2 = "SS" ↔ 0 ≤ q1 * q2) ∧
    chargeType q1 q2 = chargeType q2 q1 := by
  refine ⟨?_, ?_, ?_⟩
  · by_cases h : q1 * q2 ≥ 0
    · exact Or.inl (by simp [chargeType, h])
    · exact Or.inr (by simp [chargeType, h])
  · by_cases h : q1 * q2 ≥ 0
    · simp [chargeType, h]
    · simp [chargeType, h]
  · rw [chargeType, chargeType, mul_comm]

/-- C8: when the event cuts reject the event, `UserExec` returns before
any store access: no dispatch is produced and the collection is returned
unchanged — no counter increment, no object creation, no histogram
fill. -/
theorem claim_c8_rejected_event (cuts : List ℚ) (selTypes : String) (ev : EventIn)
    (store : DStore) (h : ev.selected = false) :
    UserExecFills cuts selTypes ev = [] ∧ UserExec cuts selTypes ev store = store := by
  have h1 : UserExecFills cuts selTypes ev = [] := by simp [UserExecFills, h]
  exact ⟨h1, by rw [UserExec, h1]; rfl⟩

/-- Witness for C8 at a rejected event and the empty collection. -/
theorem claim_c8_rejected_event_witness :
    (EventIn.mk false none 0 []).selected = false ∧
    (UserExecFills [] "" (EventIn.mk false none 0 []) = [] ∧
      UserExec [] "" (EventIn.mk false none 0 []) emptyDStore = emptyDStore) :=
  ⟨rfl, claim_c8_rejected_event [] "" (EventIn.mk false none 0 []) emptyDStore rfl⟩

/-- C9: given a raw pair azimuth in `(-pi, pi]` (here `(-1, 1]` in units
of pi), the normalisation adds a full turn exactly when the raw value is
negative, and the dispatched azimuth lies in `[0, 2*pi)` (here `[0, 2)`):
never negative, never reaching the full turn. -/
theorem claim_c9_phi_range (r : ℚ) (h1 : -1 < r) (h2 : r ≤ 1) :
    0 ≤ normPhi r ∧ normPhi r < 2 ∧
    (r < 0 → normPhi r = r + 2) ∧ (0 ≤ r → normPhi r = r) := by
  by_cases hr : r < 0
  · refine ⟨by rw [normPhi, if_pos hr]; linarith, by rw [normPhi, if_pos hr]; linarith,
      fun _ => by rw [normPhi, if_pos hr], fun h => absurd h (not_le.mpr hr)⟩
  · refine ⟨by rw [normPhi, if_neg hr]; linarith [not_lt.mp hr],
      by rw [normPhi, if_neg hr]; linarith,
      fun h => absurd h hr, fun _ => by rw [normPhi, if_neg hr]⟩

/-- Witness for C9 at the raw azimuth `-1/2` (units of pi). -/
theorem claim_c9_phi_range_witness :
    (-1 : ℚ) < mkRat (-1) 2 ∧ mkRat (-1) 2 ≤ 1 ∧
    (0 ≤ normPhi (mkRat (-1) 2) ∧ normPhi (mkRat (-1) 2) < 2 ∧
      (mkRat (-1) 2 < 0 → normPhi (mkRat (-1) 2) = mkRat (-1) 2 + 2) ∧
      (0 ≤ mkRat (-1) 2 → normPhi (mkRat (-1) 2) = mkRat (-1) 2)) :=
  ⟨by decide, by decide, claim_c9_phi_range (mkRat (-1) 2) (by decide) (by decide)⟩

/-- C10: when the event provides no multiplicity measurement, pair
processing proceeds exactly as with one — the dispatched fills are those
of the same event with the tracklet-count coordinate of every sparse fill
replaced by zero — and every sparse-histogram fill of such an event
carries a tracklet count of exactly 0 (the unconditional slot
included). -/
theorem claim_c10_no_mult (cuts : List ℚ) (selTypes : String) (ev : EventIn) :
    UserExecFills cuts selTypes { ev with mult := none } =
      (UserExecFills cuts selTypes ev).map zeroTrk ∧
    ∀ f ∈ UserExecFills cuts selTypes { ev with mult := none },
      f.objectName = "DimuSparse" → f.values.getD 5 0 = 0 := by
  refine ⟨userExecFills_mult_none cuts selTypes ev, ?_⟩
  intro f hf hname
  rw [userExecFills_mult_none cuts selTypes ev] at hf
  rw [List.mem_map] at hf
  obtain ⟨g, hg, rfl⟩ := hf
  by_cases hgn : g.objectName = "DimuSparse"
  · exact zeroTrk_getD5 g hgn
  · rw [zeroTrk, if_neg hgn] at hname ⊢
    exact absurd hname hgn

/-- Witness for C10 at the sample event: its sparse fill dispatched
without a multiplicity measurement has tracklet count 0. -/
theorem claim_c10_no_mult_witness :
    ({ identifier := "/generated/trackletDistCuts_none/BeautyChainMu/OS",
       objectName := "DimuSparse", values := [3, 3, 0, 5, 7, 0] } : FillRec) ∈
        UserExecFills [] "" { sampleEvent with mult := none } ∧
    ({ identifier := "/generated/trackletDistCuts_none/BeautyChainMu/OS",
       objectName := "DimuSparse", values := [3, 3, 0, 5, 7, 0] } : FillRec).objectName =
        "DimuSparse" ∧
    ({ identifier := "/generated/trackletDistCuts_none/BeautyChainMu/OS",
       objectName := "DimuSparse", values := [3, 3, 0, 5, 7, 0] } : FillRec).values.getD 5 0 =
        0 :=
  ⟨by decide, rfl,
    (claim_c10_no_mult [] "" sampleEvent).2
      { identifier := "/generated/trackletDistCuts_none/BeautyChainMu/OS",
        objectName := "DimuSparse", values := [3, 3, 0, 5, 7, 0] } (by decide) rfl⟩

end DimuTask
